import Mathlib

/-!
Shallow embedding of the MCTS engine in `MCTS.py` (class `MCTS`:
`getActionProbabilities`, `search`, `calculateUCT`) together with the
collaborator interface it consumes (`Chess.*`, `Model.predict`).

Modelling conventions:
* Python floats are modelled as exact rationals `ℚ`; `math.sqrt` and the
  float power operator `**` are opaque parameters of the environment
  (`Env.sqrt`, `Env.fpow`), since none of the verified properties depend
  on their numeric values.
* numpy's elementwise division, which silently yields `nan`/`inf` on a
  zero divisor instead of raising, is modelled by `NpFloat` and `npDiv`.
* The four Python dicts `Qsa, Ns, Nsa, Ps` are modelled as total
  functions into `Option`, `none` meaning "key absent".  The three dict
  reads that the source performs without a membership guard
  (`self.Ns[state]` in the backup, and the reads inside `calculateUCT`)
  are modelled with default values via `Option.getD`; in the source these
  keys are always present when those lines run (expansion always precedes
  selection and backup), so the default is never observable.
* The recursion of `search` is made structural with an explicit fuel
  argument; `none` means the simulation did not complete (either the
  fuel ran out or the Python code would have raised, e.g.
  `action_to_move(None)` after a selection loop that found no legal
  action).
-/

namespace MCTSModel

/-- A numpy floating-point cell: a finite value, `nan`, or a signed
infinity.  Only division can introduce the non-finite values here. -/
inductive NpFloat where
  | val (q : ℚ)
  | nan
  | inf
  | ninf
deriving DecidableEq

/-- numpy elementwise division `x / s`: ordinary division for `s ≠ 0`;
for `s = 0` it does not raise but produces `nan` (when `x = 0`) or a
signed infinity. -/
def npDiv (x s : ℚ) : NpFloat :=
  if s = 0 then (if x = 0 then NpFloat.nan else if 0 < x then NpFloat.inf else NpFloat.ninf)
  else NpFloat.val (x / s)

/-- The collaborator interface consumed by `MCTS.py`: the game engine
functions from the `Chess` module, the oracle `Model.predict`, and the
two opaque float operations (`math.sqrt` and `**`). -/
structure Env (Pos Move Player Rep Key : Type) where
  ACTION_SIZE : ℕ
  get_fen : Pos → Key
  /-- `Chess.get_game_ended(board, Chess.WHITE)` with the reference
  player `Chess.WHITE` already applied, as in `search`. -/
  get_game_ended : Pos → ℚ
  get_valid_actions : Pos → List Bool
  action_to_move : ℕ → Move
  get_next_state : Pos → Move → Pos × Player
  get_canonical_form : Pos → Player → Pos
  get_model_representation : Pos → Rep
  /-- `self.model.predict`: policy vector and value estimate. -/
  predict : Rep → List ℚ × ℚ
  /-- opaque model of `math.sqrt` on floats -/
  sqrt : ℚ → ℚ
  /-- opaque model of the float power `x ** e` -/
  fpow : ℚ → ℚ → ℚ

variable {Pos Move Player Rep Key : Type}

/-- The four statistics dicts created in `MCTS.__init__`. -/
structure Store (Key : Type) where
  /-- `self.Qsa`: expected value for taking action a from state s -/
  Qsa : Key × ℕ → Option ℚ
  /-- `self.Ns`: number of times state s has been visited -/
  Ns : Key → Option ℕ
  /-- `self.Nsa`: number of times action a has been taken from state s -/
  Nsa : Key × ℕ → Option ℕ
  /-- `self.Ps`: policy for state s -/
  Ps : Key → Option (List ℚ)

/-- The empty store built by `MCTS.__init__`. -/
def Store.empty : Store Key :=
  ⟨fun _ => none, fun _ => none, fun _ => none, fun _ => none⟩

/-- Pointwise dict update `f[x] = v`. -/
def upd [DecidableEq α] (f : α → β) (x : α) (v : β) : α → β :=
  fun y => if y = x then v else f y

/-- Module-level constant `NUMBER_OF_MOVES_TO_SIMULATE = 30`. -/
def NUMBER_OF_MOVES_TO_SIMULATE : ℕ := 30

/-- Module-level constant `C = 1.0`, the exploration bias. -/
def C : ℚ := 1

/-- `MCTS.calculateUCT`.  The two dict reads `self.Ns[state]`,
`self.Nsa[(state, action)]` and the indexing `self.Ps[state][action]`
are modelled with defaults (see the header comment). -/
def calculateUCT (sq : ℚ → ℚ) (t : Store Key) (state : Key) (action : ℕ) : ℚ :=
  match t.Qsa (state, action) with
  | some q =>
      q + C * sq ((((t.Ns state).getD 0 : ℕ) : ℚ) / (((t.Nsa (state, action)).getD 0 : ℕ) : ℚ))
  | none =>
      C * ((t.Ps state).getD []).getD action 0 * sq ((((t.Ns state).getD 0 : ℕ) : ℚ) + 1 / 100000000)

/-- One iteration of the selection loop body in `search`
(lines `for action in range(...): if valid_moves[action]: ...`). -/
def selectStep (score : ℕ → ℚ) (valid : ℕ → Bool) (acc : ℚ × Option ℕ) (a : ℕ) : ℚ × Option ℕ :=
  if valid a then (if score a > acc.1 then (score a, some a) else acc) else acc

/-- The whole selection loop, starting from `best_UCT = -99999`,
`best_action = None`. -/
def selectLoop (score : ℕ → ℚ) (valid : ℕ → Bool) (n : ℕ) : ℚ × Option ℕ :=
  (List.range n).foldl (selectStep score valid) (-99999, none)

/-- The `best_action` selected by the loop. -/
def selectAction (score : ℕ → ℚ) (valid : ℕ → Bool) (n : ℕ) : Option ℕ :=
  (selectLoop score valid n).2

/-- `self.Ps[state] = self.Ps[state] * mask`: elementwise product of the
raw policy with the 0/1 legality mask. -/
def maskPolicy (p : List ℚ) (mask : List Bool) : List ℚ :=
  List.zipWith (fun x m => x * (if m then 1 else 0)) p mask

/-- The prior stored by the expansion branch of `search`: mask, then
renormalize if the masked sum is positive, else add
`1/len(self.Ps[state])` to every entry (source lines 63-72; the source
mutates `self.Ps[state]` in place, this is the net stored value). -/
def expandedPrior (p : List ℚ) (mask : List Bool) : List ℚ :=
  let masked := maskPolicy p mask
  let s := masked.sum
  if 0 < s then masked.map (fun x => x / s)
  else masked.map (fun x => x + 1 / (masked.length : ℚ))

/-- The backup step of `search` (lines 102-113): update `Qsa` with the
incremental mean (using the pre-update `Nsa`), then increment `Ns` and
`Nsa`. -/
def backup [DecidableEq Key] (t : Store Key) (state : Key) (action : ℕ) (value : ℚ) : Store Key :=
  let nOld : ℕ := (t.Nsa (state, action)).getD 0
  let q' : ℚ :=
    match t.Qsa (state, action) with
    | some q => ((nOld : ℚ) * q + value) / ((nOld : ℚ) + 1)
    | none => value
  { t with
    Qsa := upd t.Qsa (state, action) (some q')
    Ns := upd t.Ns state (some ((t.Ns state).getD 0 + 1))
    Nsa := upd t.Nsa (state, action)
      (some (match t.Nsa (state, action) with | some n => n + 1 | none => 1)) }

/-- Lines 91-97 of `search`: decode the action, apply it, and take the
canonical form for the next player. -/
def nextCanonical (g : Env Pos Move Player Rep Key) (cb : Pos) (action : ℕ) : Pos :=
  let move := g.action_to_move action
  let next := g.get_next_state cb move
  g.get_canonical_form next.1 next.2

/-- `MCTS.search`, with fuel making the recursion structural.  `none`
means the simulation did not complete (fuel exhausted, or the selection
loop found no legal action and the source would have crashed in
`action_to_move(None)`). -/
def search (g : Env Pos Move Player Rep Key) [DecidableEq Key] :
    ℕ → Pos → Store Key → Option (ℚ × Store Key)
  | 0, _, _ => none
  | fuel + 1, canonical_board, t =>
    let state := g.get_fen canonical_board
    let ended := g.get_game_ended canonical_board
    if ended ≠ 0 then some (-ended, t)
    else
      match t.Ps state with
      | none =>
        let pv := g.predict (g.get_model_representation canonical_board)
        let mask := g.get_valid_actions canonical_board
        some (-pv.2,
          { t with
            Ps := upd t.Ps state (some (expandedPrior pv.1 mask))
            Ns := upd t.Ns state (some 0) })
      | some _ =>
        let valid_moves := g.get_valid_actions canonical_board
        match selectAction (calculateUCT g.sqrt t state)
            (fun a => valid_moves.getD a false) g.ACTION_SIZE with
        | none => none
        | some action =>
          match search g fuel (nextCanonical g canonical_board action) t with
          | none => none
          | some (value, t') => some (-value, backup t' state action value)

/-- The simulation loop `for _ in range(n): self.search(canonical_board)`
at the start of `getActionProbabilities`, threading the statistics
store. -/
def runSims (g : Env Pos Move Player Rep Key) [DecidableEq Key] (fuel : ℕ) :
    ℕ → Pos → Store Key → Option (Store Key)
  | 0, _, t => some t
  | n + 1, cb, t =>
    match search g fuel cb t with
    | none => none
    | some (_, t') => runSims g fuel n cb t'

/-- `np.argmax`: index of the first maximal entry (0 on an empty list). -/
def npArgmax (l : List ℕ) : ℕ :=
  (List.range l.length).foldl (fun best i => if l.getD i 0 > l.getD best 0 then i else best) 0

/-- `np.zeros(n)` followed by `probabilities[i] = 1`. -/
def oneHot (n i : ℕ) : List NpFloat :=
  (List.range n).map (fun j => if j = i then NpFloat.val 1 else NpFloat.val 0)

/-- The policy-extraction tail of `getActionProbabilities` (lines 41-49),
operating on the root visit counts `Na`. -/
def extractProbabilities (fpow : ℚ → ℚ → ℚ) (Na : List ℕ) (temperature : ℚ) : List NpFloat :=
  if temperature = 0 then oneHot Na.length (npArgmax Na)
  else
    let Na' := Na.map (fun c => fpow ((c : ℕ) : ℚ) (1 / temperature))
    let s := Na'.sum
    Na'.map (fun x => npDiv x s)

/-- `MCTS.getActionProbabilities`: 30 simulations from the fixed root,
then read the root's edge visit counts (0 when absent) and extract the
probability vector. -/
def getActionProbabilities (g : Env Pos Move Player Rep Key) [DecidableEq Key]
    (fuel : ℕ) (canonical_board : Pos) (t : Store Key) (temperature : ℚ) :
    Option (List NpFloat × Store Key) :=
  match runSims g fuel NUMBER_OF_MOVES_TO_SIMULATE canonical_board t with
  | none => none
  | some t' =>
    let state := g.get_fen canonical_board
    let Na : List ℕ := (List.range g.ACTION_SIZE).map (fun a => (t'.Nsa (state, a)).getD 0)
    some (extractProbabilities g.fpow Na temperature, t')

/-- `Σ_a edgeVisits(k, a)` over the action space `[0, n)`. -/
def edgeVisitSum (t : Store Key) (k : Key) (n : ℕ) : ℕ :=
  ∑ a ∈ Finset.range n, (t.Nsa (k, a)).getD 0

/-- The per-state counting invariant of the statistics store:
`Ns` and `Nsa` are only introduced for expanded states, `Nsa` only holds
actions inside the action space, and each state's visit count equals the
sum of its edge visit counts. -/
def SearchInv (n : ℕ) (t : Store Key) : Prop :=
  (∀ k, t.Ps k = none → t.Ns k = none)
  ∧ (∀ k a, t.Ps k = none → t.Nsa (k, a) = none)
  ∧ (∀ k a, n ≤ a → t.Nsa (k, a) = none)
  ∧ (∀ k, (t.Ns k).getD 0 = edgeVisitSum t k n)

/-! Concrete instantiations of the collaborator interface, used to
evaluate the model on closed inputs.  Positions, moves and keys are all
natural numbers; `get_fen` is the identity. -/

/-- A game with 4 actions where action 3 is illegal, the game never
ends, and the oracle puts all its mass on the illegal action (so the
legal actions are masked to an all-zero vector). -/
def envMask : Env ℕ ℕ ℕ ℕ ℕ where
  ACTION_SIZE := 4
  get_fen := id
  get_game_ended := fun _ => 0
  get_valid_actions := fun _ => [true, true, true, false]
  action_to_move := id
  get_next_state := fun b _ => (b + 1, 0)
  get_canonical_form := fun b _ => b
  get_model_representation := id
  predict := fun _ => ([0, 0, 0, (1 : ℚ)/2], 0)
  sqrt := fun _ => 0
  fpow := fun x _ => x

/-- A single-action game that never ends, with uniform oracle policy:
each simulation walks one ply deeper. -/
def envLine : Env ℕ ℕ ℕ ℕ ℕ where
  ACTION_SIZE := 1
  get_fen := id
  get_game_ended := fun _ => 0
  get_valid_actions := fun _ => [true]
  action_to_move := id
  get_next_state := fun b _ => (b + 1, 0)
  get_canonical_form := fun b _ => b
  get_model_representation := id
  predict := fun _ => ([1], 0)
  sqrt := fun _ => 0
  fpow := fun x _ => x

/-- A game whose every position is already terminal with outcome 1. -/
def envTerminal : Env ℕ ℕ ℕ ℕ ℕ where
  ACTION_SIZE := 2
  get_fen := id
  get_game_ended := fun _ => 1
  get_valid_actions := fun _ => []
  action_to_move := id
  get_next_state := fun b _ => (b + 1, 0)
  get_canonical_form := fun b _ => b
  get_model_representation := id
  predict := fun _ => ([], 0)
  sqrt := fun _ => 0
  fpow := fun x _ => x

/-- A single-action game where no action is ever legal. -/
def envNoLegal : Env ℕ ℕ ℕ ℕ ℕ where
  ACTION_SIZE := 1
  get_fen := id
  get_game_ended := fun _ => 0
  get_valid_actions := fun _ => [false]
  action_to_move := id
  get_next_state := fun b _ => (b + 1, 0)
  get_canonical_form := fun b _ => b
  get_model_representation := id
  predict := fun _ => ([1], 0)
  sqrt := fun _ => 0
  fpow := fun x _ => x

/-- A concrete store with state 0 expanded and one traversed edge,
for evaluating `calculateUCT` and the selection loop. -/
def storeSel : Store ℕ where
  Qsa := fun p => if p = (0, 0) then some 1 else none
  Ns := fun k => if k = 0 then some 4 else none
  Nsa := fun p => if p = (0, 0) then some 1 else none
  Ps := fun k => if k = 0 then some [1/2, 1/2] else none

/-- A concrete store with state 0 expanded and no traversed edge. -/
def storeFresh : Store ℕ where
  Qsa := fun _ => none
  Ns := fun k => if k = 0 then some 0 else none
  Nsa := fun _ => none
  Ps := fun k => if k = 0 then some [1] else none

/-! ### Helper lemmas -/

theorem upd_same [DecidableEq α] (f : α → β) (x : α) (v : β) : upd f x v x = v := by
  simp [upd]

theorem upd_ne [DecidableEq α] (f : α → β) (x y : α) (v : β) (h : y ≠ x) :
    upd f x v y = f y := by
  simp [upd, h]

theorem option_eq_some_getD {α : Type} (o : Option α) (d : α) (h : o.isSome = true) :
    o = some (o.getD d) := by
  cases o with
  | none => simp at h
  | some a => rfl

/-- If no element of the scanned list is legal, the selection loop keeps
its accumulator (in particular `best_action` stays `None`). -/
theorem foldl_selectStep_invalid (score : ℕ → ℚ) (valid : ℕ → Bool) :
    ∀ (l : List ℕ) (acc : ℚ × Option ℕ), (∀ a ∈ l, valid a = false) →
      l.foldl (selectStep score valid) acc = acc := by
  intro l
  induction l with
  | nil => intro acc _; rfl
  | cons b bs ih =>
    intro acc h
    have hb : valid b = false := h b (List.mem_cons_self b bs)
    have hstep : selectStep score valid acc b = acc := by simp [selectStep, hb]
    rw [List.foldl_cons, hstep]
    exact ih acc fun a ha => h a (List.mem_cons_of_mem b ha)

/-- A selected action always comes from the scanned list. -/
theorem foldl_selectStep_mem (score : ℕ → ℚ) (valid : ℕ → Bool) :
    ∀ (l : List ℕ) (acc : ℚ × Option ℕ) (a : ℕ),
      (l.foldl (selectStep score valid) acc).2 = some a → acc.2 = some a ∨ a ∈ l := by
  intro l
  induction l with
  | nil => intro acc a h; exact Or.inl h
  | cons b bs ih =>
    intro acc a h
    rw [List.foldl_cons] at h
    rcases ih (selectStep score valid acc b) a h with h' | h'
    · by_cases hv : valid b
      · by_cases hs : score b > acc.1
        · simp [selectStep, hv, hs] at h'
          exact Or.inr (h' ▸ List.mem_cons_self b bs)
        · simp [selectStep, hv, hs] at h'
          exact Or.inl h'
      · simp [selectStep, hv] at h'
        exact Or.inl h'
    · exact Or.inr (List.mem_cons_of_mem b h')

/-- The selected action lies inside the action space. -/
theorem selectAction_lt (score : ℕ → ℚ) (valid : ℕ → Bool) (n a : ℕ)
    (h : selectAction score valid n = some a) : a < n := by
  unfold selectAction selectLoop at h
  rcases foldl_selectStep_mem score valid (List.range n) (-99999, none) a h with h' | h'
  · simp at h'
  · exact List.mem_range.mp h'

/-- On a root that is already over, every simulation of the loop
returns immediately and the store never changes. -/
theorem runSims_terminal (g : Env Pos Move Player Rep Key) [DecidableEq Key]
    (fuel : ℕ) (cb : Pos) (h : g.get_game_ended cb ≠ 0) :
    ∀ (n : ℕ) (t : Store Key), runSims g (fuel + 1) n cb t = some t := by
  intro n
  induction n with
  | zero => intro t; rfl
  | succ m ih =>
    intro t
    have hs : search g (fuel + 1) cb t = some (-(g.get_game_ended cb), t) := by
      simp [search, h]
    rw [runSims, hs]
    exact ih t

/-!
### C8 — terminal short-circuit

`simulate` on a position whose terminal outcome is nonzero returns the
negated outcome and performs no statistics mutation.
-/

/-- C8: on a terminal position (`get_game_ended ≠ 0`), `search` returns
the negated outcome and the statistics store is returned unchanged: no
entry of `Qsa`, `Ns`, `Nsa` or `Ps` is touched. -/
theorem C8_terminal_short_circuit (g : Env Pos Move Player Rep Key) [DecidableEq Key]
    (fuel : ℕ) (cb : Pos) (t : Store Key) (h : g.get_game_ended cb ≠ 0) :
    search g (fuel + 1) cb t = some (-(g.get_game_ended cb), t) := by
  simp [search, h]

/-- Witness for C8 at a concrete terminal position. -/
theorem C8_witness :
    envTerminal.get_game_ended 7 ≠ 0
    ∧ search envTerminal 3 7 Store.empty = some (-(envTerminal.get_game_ended 7), Store.empty) :=
  ⟨by norm_num [envTerminal], C8_terminal_short_circuit envTerminal 2 7 Store.empty
    (by norm_num [envTerminal])⟩

/-!
### C10 — expanded state with an all-zero legal mask

If `search` reaches an expanded, non-terminal position whose legality
mask is all zeros, the selection loop never assigns `best_action` (it
stays the `None` sentinel) and the subsequent
`action_to_move(None)`/move-application step fails, modelled by `search`
returning `none`.
-/

/-- C10: with an all-zero mask on an expanded non-terminal state the
selection loop yields `none` and the simulation does not complete. -/
theorem C10_all_zero_mask (g : Env Pos Move Player Rep Key) [DecidableEq Key]
    (fuel : ℕ) (cb : Pos) (t : Store Key) (ps : List ℚ)
    (hend : g.get_game_ended cb = 0)
    (hps : t.Ps (g.get_fen cb) = some ps)
    (hmask : ∀ a, a < g.ACTION_SIZE → (g.get_valid_actions cb).getD a false = false) :
    selectAction (calculateUCT g.sqrt t (g.get_fen cb))
        (fun a => (g.get_valid_actions cb).getD a false) g.ACTION_SIZE = none
    ∧ search g (fuel + 1) cb t = none := by
  have hsel : selectAction (calculateUCT g.sqrt t (g.get_fen cb))
      (fun a => (g.get_valid_actions cb).getD a false) g.ACTION_SIZE = none := by
    unfold selectAction selectLoop
    rw [foldl_selectStep_invalid _ _ _ _ (fun a ha => hmask a (List.mem_range.mp ha))]
  refine ⟨hsel, ?_⟩
  have hsel' := hsel
  simp only [List.getD_eq_getElem?_getD] at hsel'
  simp [search, hend, hps, hsel, hsel']

/-- Witness for C10 on a concrete expanded state with no legal action. -/
theorem C10_witness :
    envNoLegal.get_game_ended 0 = 0
    ∧ storeFresh.Ps (envNoLegal.get_fen 0) = some [1]
    ∧ (∀ a, a < envNoLegal.ACTION_SIZE →
        (envNoLegal.get_valid_actions 0).getD a false = false)
    ∧ (selectAction (calculateUCT envNoLegal.sqrt storeFresh (envNoLegal.get_fen 0))
        (fun a => (envNoLegal.get_valid_actions 0).getD a false) envNoLegal.ACTION_SIZE = none
      ∧ search envNoLegal 5 0 storeFresh = none) :=
  ⟨rfl, rfl, by decide,
    C10_all_zero_mask envNoLegal 4 0 storeFresh [1] rfl rfl (by decide)⟩

/-!
### C5 — backup update

`recordBackup` semantics of lines 102-113: incremental mean on an
existing edge, initialization on a fresh edge, and both counters bumped
by exactly one.
-/

/-- C5: the backup step updates `Qsa` by the incremental mean
`(Nsa * Qsa + v) / (Nsa + 1)` when the edge exists, initializes
`Qsa = v, Nsa = 1` otherwise, and in both cases increments the state
visit count by exactly 1 and the edge visit count by exactly 1. -/
theorem C5_backup_update {Key : Type} [DecidableEq Key]
    (t : Store Key) (s : Key) (a : ℕ) (v : ℚ) (m : ℕ)
    (hns : t.Ns s = some m) :
    (backup t s a v).Ns s = some (m + 1)
    ∧ (∀ q n, t.Qsa (s, a) = some q → t.Nsa (s, a) = some n →
        (backup t s a v).Qsa (s, a) = some (((n : ℚ) * q + v) / ((n : ℚ) + 1))
        ∧ (backup t s a v).Nsa (s, a) = some (n + 1))
    ∧ (t.Qsa (s, a) = none → t.Nsa (s, a) = none →
        (backup t s a v).Qsa (s, a) = some v ∧ (backup t s a v).Nsa (s, a) = some 1) := by
  refine ⟨by simp [backup, upd, hns], ?_, ?_⟩
  · intro q n hq hn
    constructor
    · simp [backup, upd, hq, hn]
    · simp [backup, upd, hn]
  · intro hq hn
    constructor
    · simp [backup, upd, hq]
    · simp [backup, upd, hn]

/-- Witness for C5 on a concrete store with one existing edge. -/
theorem C5_witness :
    storeSel.Ns 0 = some 4
    ∧ ((backup storeSel 0 0 (1/2)).Ns 0 = some (4 + 1)
      ∧ (∀ q n, storeSel.Qsa (0, 0) = some q → storeSel.Nsa (0, 0) = some n →
          (backup storeSel 0 0 (1/2)).Qsa (0, 0) = some (((n : ℚ) * q + 1/2) / ((n : ℚ) + 1))
          ∧ (backup storeSel 0 0 (1/2)).Nsa (0, 0) = some (n + 1))
      ∧ (storeSel.Qsa (0, 0) = none → storeSel.Nsa (0, 0) = none →
          (backup storeSel 0 0 (1/2)).Qsa (0, 0) = some (1/2)
          ∧ (backup storeSel 0 0 (1/2)).Nsa (0, 0) = some 1)) :=
  ⟨rfl, C5_backup_update storeSel 0 0 (1/2) 4 rfl⟩

/-!
### C1 — expansion prior (corrected)

The claim states the degenerate-mask fallback substitutes a uniform
distribution over the k legal actions (1/k on each legal action, 0 on
illegal actions).  The source instead adds `1/len(self.Ps[state])` to
every entry of the masked vector, producing `1/ACTION_SIZE` on every
action, legal and illegal alike.
-/

/-- C1 counterexample: with 3 legal actions out of 4 and an oracle
policy masked to all-zero, the stored prior is `[1/4, 1/4, 1/4, 1/4]`
(uniform over all four actions, nonzero on the illegal action 3), not
the `[1/3, 1/3, 1/3, 0]` the claim requires. -/
theorem C1_counterexample :
    (search envMask 2 0 Store.empty).map (fun r => r.2.Ps 0)
      = some (some [1/4, 1/4, 1/4, 1/4])
    ∧ ([(1:ℚ)/4, 1/4, 1/4, 1/4] ≠ [1/3, 1/3, 1/3, 0]) := by
  constructor
  · norm_num [search, expandedPrior, maskPolicy, upd, Store.empty, envMask]
  · norm_num

/-- C1 (amended): during expansion of an unseen non-terminal state the
stored prior is `expandedPrior`; if the masked sum is positive it is the
masked policy renormalized by the sum, and if the mask zeroes every
entry the stored prior is the vector that is `1/ACTION_SIZE` at every
index — including illegal ones — while the masked policy itself is 0 at
every illegal index. -/
theorem C1_expansion_prior (g : Env Pos Move Player Rep Key) [DecidableEq Key]
    (fuel : ℕ) (cb : Pos) (t : Store Key)
    (hend : g.get_game_ended cb = 0)
    (hnew : t.Ps (g.get_fen cb) = none) :
    (search g (fuel + 1) cb t).map (fun r => r.2.Ps (g.get_fen cb))
      = some (some (expandedPrior (g.predict (g.get_model_representation cb)).1
          (g.get_valid_actions cb)))
    ∧ (∀ (p : List ℚ) (mask : List Bool),
        (0 < (maskPolicy p mask).sum →
          expandedPrior p mask
            = (maskPolicy p mask).map (fun x => x / (maskPolicy p mask).sum))
        ∧ ((∀ x ∈ maskPolicy p mask, x = 0) →
          expandedPrior p mask
            = List.replicate (maskPolicy p mask).length
                (1 / ((maskPolicy p mask).length : ℚ)))
        ∧ (∀ i, i < (maskPolicy p mask).length → mask.getD i false = false →
            (maskPolicy p mask).getD i 0 = 0)) := by
  constructor
  · simp [search, hend, hnew, upd]
  · intro p mask
    refine ⟨?_, ?_, ?_⟩
    · intro hpos
      simp only [expandedPrior]
      rw [if_pos hpos]
    · intro hz
      have hsum : (maskPolicy p mask).sum = 0 := List.sum_eq_zero hz
      simp only [expandedPrior]
      rw [if_neg (by rw [hsum]; exact lt_irrefl 0)]
      refine List.eq_replicate_iff.mpr ⟨by simp, ?_⟩
      intro b hb
      obtain ⟨x, hx, rfl⟩ := List.mem_map.mp hb
      rw [hz x hx, zero_add]
    · intro i hi hm
      have hlen : i < mask.length := by
        have := List.length_zipWith (fun x m => x * (if m then (1:ℚ) else 0)) p mask
        unfold maskPolicy at hi
        omega
      have hmi : mask[i] = false := by
        rw [List.getD_eq_getElem mask false hlen] at hm
        exact hm
      have hip : i < p.length := by
        have := List.length_zipWith (fun x m => x * (if m then (1:ℚ) else 0)) p mask
        unfold maskPolicy at hi
        omega
      rw [List.getD_eq_getElem _ 0 hi]
      unfold maskPolicy
      rw [List.getElem_zipWith]
      rw [hmi]
      simp

/-- Witness for C1 on the concrete all-zero-mask expansion. -/
theorem C1_witness :
    envMask.get_game_ended 0 = 0
    ∧ Store.empty.Ps (envMask.get_fen 0) = none
    ∧ ((search envMask 1 0 Store.empty).map (fun r => r.2.Ps (envMask.get_fen 0))
        = some (some (expandedPrior [0, 0, 0, (1:ℚ)/2] [true, true, true, false]))
      ∧ (∀ (p : List ℚ) (mask : List Bool),
          (0 < (maskPolicy p mask).sum →
            expandedPrior p mask
              = (maskPolicy p mask).map (fun x => x / (maskPolicy p mask).sum))
          ∧ ((∀ x ∈ maskPolicy p mask, x = 0) →
            expandedPrior p mask
              = List.replicate (maskPolicy p mask).length
                  (1 / ((maskPolicy p mask).length : ℚ)))
          ∧ (∀ i, i < (maskPolicy p mask).length → mask.getD i false = false →
              (maskPolicy p mask).getD i 0 = 0))) :=
  ⟨rfl, rfl, C1_expansion_prior envMask 0 0 Store.empty rfl rfl⟩

/-!
### C4 — UCB selection with first-index tie-break
-/

/-- While every legal score seen so far is strictly below `score a`,
the running best stays strictly below `score a`. -/
theorem foldl_selectStep_below (score : ℕ → ℚ) (valid : ℕ → Bool) (a : ℕ) :
    ∀ (l : List ℕ) (acc : ℚ × Option ℕ),
      acc.1 < score a → (∀ b ∈ l, valid b = true → score b < score a) →
      (l.foldl (selectStep score valid) acc).1 < score a := by
  intro l
  induction l with
  | nil => intro acc hacc _; exact hacc
  | cons b bs ih =>
    intro acc hacc h
    rw [List.foldl_cons]
    refine ih _ ?_ (fun c hc hvc => h c (List.mem_cons_of_mem b hc) hvc)
    unfold selectStep
    by_cases hv : valid b
    · by_cases hs : score b > acc.1
      · simpa [hv, hs] using h b (List.mem_cons_self b bs) hv
      · simpa [hv, hs] using hacc
    · simpa [hv] using hacc

/-- Once the accumulator holds a score no later legal score strictly
exceeds, the loop never changes it. -/
theorem foldl_selectStep_fix (score : ℕ → ℚ) (valid : ℕ → Bool) :
    ∀ (l : List ℕ) (x : ℚ) (o : Option ℕ),
      (∀ b ∈ l, valid b = true → score b ≤ x) →
      l.foldl (selectStep score valid) (x, o) = (x, o) := by
  intro l
  induction l with
  | nil => intro x o _; rfl
  | cons b bs ih =>
    intro x o h
    rw [List.foldl_cons]
    have hstep : selectStep score valid (x, o) b = (x, o) := by
      unfold selectStep
      by_cases hv : valid b
      · have := h b (List.mem_cons_self b bs) hv
        have hns : ¬ score b > x := not_lt.mpr this
        simp [hv, hns]
      · simp [hv]
    rw [hstep]
    exact ih x o (fun c hc hvc => h c (List.mem_cons_of_mem b hc) hvc)

/-- C4: on an expanded state the selection loop returns the
lowest-index legal action maximizing `calculateUCT`, scanning in
ascending index order with strict improvement (ties keep the first
maximizer); and `calculateUCT` is the claimed UCB formula in both the
existing-edge and fresh-edge cases. -/
theorem C4_selection {Key : Type} (sq : ℚ → ℚ) (t : Store Key) (state : Key)
    (valid : ℕ → Bool) (n a : ℕ)
    (ha : a < n) (hva : valid a = true)
    (hmax : ∀ b, b < n → valid b = true →
      calculateUCT sq t state b ≤ calculateUCT sq t state a)
    (hfirst : ∀ b, b < a → valid b = true →
      calculateUCT sq t state b < calculateUCT sq t state a)
    (hbig : -99999 < calculateUCT sq t state a) :
    selectAction (calculateUCT sq t state) valid n = some a
    ∧ (∀ b q, t.Qsa (state, b) = some q →
        calculateUCT sq t state b
          = q + C * sq ((((t.Ns state).getD 0 : ℕ) : ℚ)
              / (((t.Nsa (state, b)).getD 0 : ℕ) : ℚ)))
    ∧ (∀ b, t.Qsa (state, b) = none →
        calculateUCT sq t state b
          = C * ((t.Ps state).getD []).getD b 0
              * sq ((((t.Ns state).getD 0 : ℕ) : ℚ) + 1 / 100000000)) := by
  refine ⟨?_, ?_, ?_⟩
  · unfold selectAction selectLoop
    have hdecomp : List.range n
        = (List.range a ++ [a]) ++ (List.range (n - (a + 1))).map ((a + 1) + ·) := by
      rw [← List.range_succ, ← List.range_add]
      congr 1
      omega
    rw [hdecomp, List.foldl_append, List.foldl_append]
    have h1 : ((List.range a).foldl (selectStep (calculateUCT sq t state) valid)
        (-99999, none)).1 < calculateUCT sq t state a :=
      foldl_selectStep_below _ _ _ _ _ hbig
        (fun b hb hv => hfirst b (List.mem_range.mp hb) hv)
    have h2 : ∀ acc : ℚ × Option ℕ, acc.1 < calculateUCT sq t state a →
        selectStep (calculateUCT sq t state) valid acc a
          = (calculateUCT sq t state a, some a) := by
      intro acc hacc
      unfold selectStep
      rw [if_pos hva, if_pos (show calculateUCT sq t state a > _ from hacc)]
    rw [List.foldl_cons, List.foldl_nil, h2 _ h1]
    rw [foldl_selectStep_fix _ _ _ _ _ ?_]
    intro b hb hvb
    obtain ⟨c, hc, rfl⟩ := List.mem_map.mp hb
    exact hmax _ (by have := List.mem_range.mp hc; omega) hvb
  · intro b q hq
    simp [calculateUCT, hq]
  · intro b hq
    simp [calculateUCT, hq]

/-- Witness for C4: on `storeSel` (edge (0,0) traversed once, edge
(0,1) fresh, `sqrt` modelled as the zero function) the loop picks
action 0. -/
theorem C4_witness :
    selectAction (calculateUCT (fun _ => 0) storeSel 0)
      (fun b => [true, true].getD b false) 2 = some 0 :=
  (C4_selection (fun _ => 0) storeSel 0 (fun b => [true, true].getD b false) 2 0
    (by norm_num) (by norm_num)
    (by
      intro b hb _
      interval_cases b <;> norm_num [calculateUCT, storeSel, C])
    (fun b hb => absurd hb (Nat.not_lt_zero b))
    (by norm_num [calculateUCT, storeSel, C])).1

/-!
### C9 — temperature limits of the policy extraction
-/

/-- Invariant of the `np.argmax` fold over the first `n` indices:
the running best is inside `[0, n)`, no scanned entry exceeds it, and
every entry before it is strictly smaller (first-maximum tie-break). -/
theorem npArgmax_aux (l : List ℕ) :
    ∀ n, 1 ≤ n →
      ((List.range n).foldl (fun best i => if l.getD i 0 > l.getD best 0 then i else best) 0 < n
      ∧ (∀ i, i < n →
          l.getD i 0
            ≤ l.getD ((List.range n).foldl
                (fun best i => if l.getD i 0 > l.getD best 0 then i else best) 0) 0)
      ∧ (∀ i, i < (List.range n).foldl
            (fun best i => if l.getD i 0 > l.getD best 0 then i else best) 0 →
          l.getD i 0
            < l.getD ((List.range n).foldl
                (fun best i => if l.getD i 0 > l.getD best 0 then i else best) 0) 0)) := by
  intro n
  induction n with
  | zero => omega
  | succ m ih =>
    intro _
    rw [show m + 1 = Nat.succ m from rfl, List.range_succ, List.foldl_append,
      List.foldl_cons, List.foldl_nil]
    by_cases hm : 1 ≤ m
    · obtain ⟨ih1, ih2, ih3⟩ := ih hm
      by_cases hgt : l.getD m 0
          > l.getD ((List.range m).foldl
              (fun best i => if l.getD i 0 > l.getD best 0 then i else best) 0) 0
      · rw [if_pos hgt]
        refine ⟨Nat.lt_succ_self m, ?_, ?_⟩
        · intro i hi
          rcases Nat.lt_succ_iff_lt_or_eq.mp hi with h | h
          · exact le_of_lt (lt_of_le_of_lt (ih2 i h) hgt)
          · subst h; exact le_refl _
        · intro i hi
          exact lt_of_le_of_lt (ih2 i hi) hgt
      · rw [if_neg hgt]
        refine ⟨Nat.lt_succ_of_lt ih1, ?_, ih3⟩
        intro i hi
        rcases Nat.lt_succ_iff_lt_or_eq.mp hi with h | h
        · exact ih2 i h
        · subst h; exact not_lt.mp hgt
    · have hm0 : m = 0 := by omega
      subst hm0
      simp

/-- `np.argmax` returns an in-range index of a maximal entry, and every
earlier entry is strictly smaller (the first maximum is returned). -/
theorem npArgmax_spec (l : List ℕ) (hl : l ≠ []) :
    npArgmax l < l.length
    ∧ (∀ i, i < l.length → l.getD i 0 ≤ l.getD (npArgmax l) 0)
    ∧ (∀ i, i < npArgmax l → l.getD i 0 < l.getD (npArgmax l) 0) := by
  have h1 : 1 ≤ l.length := by
    cases l with
    | nil => exact absurd rfl hl
    | cons a as => simp
  exact npArgmax_aux l l.length h1

/-- `getD` of a map over `List.range`. -/
theorem getD_map_range {α : Type} (f : ℕ → α) (n j : ℕ) (d : α) (h : j < n) :
    ((List.range n).map f).getD j d = f j := by
  have hlen : j < ((List.range n).map f).length := by simp [h]
  rw [List.getD_eq_getElem _ d hlen, List.getElem_map]
  simp

/-- C9: with `temperature = 0` the extraction returns the one-hot
vector on `np.argmax` of the visit counts (first maximal index wins
ties); with `temperature = 1` it returns exactly the visit counts
divided by their sum, since the exponent `1/1` leaves each count
unchanged. -/
theorem C9_temperature_limits (fpow : ℚ → ℚ → ℚ) (Na : List ℕ)
    (hpos : ∃ c ∈ Na, 0 < c) (hpow : ∀ x : ℚ, fpow x 1 = x) :
    (extractProbabilities fpow Na 0 = oneHot Na.length (npArgmax Na)
      ∧ npArgmax Na < Na.length
      ∧ (∀ i, i < Na.length → Na.getD i 0 ≤ Na.getD (npArgmax Na) 0)
      ∧ (∀ i, i < npArgmax Na → Na.getD i 0 < Na.getD (npArgmax Na) 0)
      ∧ (∀ j, j < Na.length →
          (oneHot Na.length (npArgmax Na)).getD j NpFloat.nan
            = if j = npArgmax Na then NpFloat.val 1 else NpFloat.val 0))
    ∧ extractProbabilities fpow Na 1
        = Na.map (fun (c : ℕ) => NpFloat.val ((c : ℚ) / (Na.sum : ℚ))) := by
  obtain ⟨c, hc, hcpos⟩ := hpos
  have hne : Na ≠ [] := List.ne_nil_of_mem hc
  obtain ⟨ha1, ha2, ha3⟩ := npArgmax_spec Na hne
  constructor
  · refine ⟨by simp [extractProbabilities], ha1, ha2, ha3, ?_⟩
    intro j hj
    exact getD_map_range _ _ _ _ hj
  · have hsum : 0 < Na.sum :=
      lt_of_lt_of_le hcpos (List.single_le_sum (fun x _ => Nat.zero_le x) c hc)
    have hs : ((Na.sum : ℕ) : ℚ) ≠ 0 := by
      exact_mod_cast Nat.pos_iff_ne_zero.mp hsum
    have hone : (1 : ℚ) / 1 = 1 := by norm_num
    simp only [extractProbabilities, if_neg one_ne_zero, hone]
    have hmap : Na.map (fun cc => fpow ((cc : ℕ) : ℚ) 1)
        = Na.map (fun cc => ((cc : ℕ) : ℚ)) :=
      List.map_congr_left (fun x _ => hpow _)
    rw [hmap]
    have hcast : (Na.map (fun cc => ((cc : ℕ) : ℚ))).sum = ((Na.sum : ℕ) : ℚ) := by
      rw [Nat.cast_list_sum]
    rw [hcast, List.map_map]
    refine List.map_congr_left ?_
    intro x _
    have hs3 : (Na.map (Nat.cast : ℕ → ℚ)).sum ≠ 0 := by
      rw [← Nat.cast_list_sum]
      exact hs
    simp [Function.comp, npDiv, hs, hs3]

/-- Witness for C9 at the concrete count vector `[0, 2, 1]`. -/
theorem C9_witness :
    extractProbabilities (fun x _ => x) [0, 2, 1] 1
      = [0, 2, 1].map (fun (c : ℕ) => NpFloat.val ((c : ℚ) / (([0, 2, 1].sum : ℕ) : ℚ))) :=
  (C9_temperature_limits (fun x _ => x) [0, 2, 1]
    (by decide) (fun _ => rfl)).2

/-!
### C7 — simulation values stay in [-1, 1]
-/

/-- C7: provided the oracle's value predictions lie in `[-1, 1]` and
terminal outcomes lie in `{-1, 0, 1}`, every completed `search` call
returns a value in `[-1, 1]` (terminal returns negate an outcome,
expansion returns the negated oracle value, selection returns the
negated recursive result). -/
theorem C7_value_range (g : Env Pos Move Player Rep Key) [DecidableEq Key]
    (hend : ∀ p : Pos,
      g.get_game_ended p = -1 ∨ g.get_game_ended p = 0 ∨ g.get_game_ended p = 1)
    (hval : ∀ r : Rep, -1 ≤ (g.predict r).2 ∧ (g.predict r).2 ≤ 1) :
    ∀ (fuel : ℕ) (cb : Pos) (t : Store Key) (v : ℚ) (t' : Store Key),
      search g fuel cb t = some (v, t') → -1 ≤ v ∧ v ≤ 1 := by
  intro fuel
  induction fuel with
  | zero =>
    intro cb t v t' h
    simp [search] at h
  | succ m ih =>
    intro cb t v t' h
    simp only [search] at h
    by_cases he : g.get_game_ended cb = 0
    · rw [if_neg (not_not_intro he)] at h
      cases hps : t.Ps (g.get_fen cb) with
      | none =>
        simp only [hps, Option.some.injEq, Prod.mk.injEq] at h
        obtain ⟨hv, -⟩ := h
        obtain ⟨h1, h2⟩ := hval (g.get_model_representation cb)
        subst hv
        constructor <;> linarith
      | some ps =>
        simp only [hps] at h
        cases hsel : selectAction (calculateUCT g.sqrt t (g.get_fen cb))
            (fun a => (g.get_valid_actions cb).getD a false) g.ACTION_SIZE with
        | none => simp only [hsel] at h; exact Option.noConfusion h
        | some action =>
          simp only [hsel] at h
          cases hrec : search g m (nextCanonical g cb action) t with
          | none => simp only [hrec] at h; exact Option.noConfusion h
          | some pr =>
            obtain ⟨value, t1⟩ := pr
            simp only [hrec] at h
            simp only [Option.some.injEq, Prod.mk.injEq] at h
            obtain ⟨hv, -⟩ := h
            obtain ⟨h1, h2⟩ := ih _ _ _ _ hrec
            subst hv
            constructor <;> linarith
    · rw [if_pos he] at h
      simp only [Option.some.injEq, Prod.mk.injEq] at h
      obtain ⟨hv, -⟩ := h
      rcases hend cb with h1 | h1 | h1 <;> rw [h1] at hv <;> subst hv <;> norm_num

/-- Witness for C7 at a concrete terminal position: the returned value
`-1` lies in `[-1, 1]`. -/
theorem C7_witness : -1 ≤ (-1 : ℚ) ∧ (-1 : ℚ) ≤ 1 :=
  C7_value_range envTerminal
    (fun _ => Or.inr (Or.inr rfl))
    (fun _ => by norm_num [envTerminal])
    1 5 Store.empty (-1) Store.empty (by norm_num [search, envTerminal])

/-!
### C3 — zero visit counts with nonzero temperature (corrected)

The claim states the division by the zero visit-count sum is guarded
and surfaced as a `DegenerateTemperature` error.  The source has no
guard: `Na / Na.sum()` is executed unconditionally and numpy yields a
NaN vector (0/0 per entry) which is returned as a normal result.  A
zero count vector is moreover reachable with the fixed budget of 30
simulations (terminal root), not only with a budget of 0.
-/

/-- C3 counterexample: on a terminal root with `temperature = 1/2`,
`getActionProbabilities` does not fail — it returns a vector whose
entries are all NaN. -/
theorem C3_counterexample :
    (getActionProbabilities envTerminal 1 0 Store.empty (1/2)).map Prod.fst
      = some [NpFloat.nan, NpFloat.nan]
    ∧ (getActionProbabilities envTerminal 1 0 Store.empty (1/2)).isSome = true := by
  have h30 : runSims envTerminal 1 NUMBER_OF_MOVES_TO_SIMULATE 0 Store.empty
      = some Store.empty :=
    runSims_terminal envTerminal 0 0 (by norm_num [envTerminal]) _ _
  have hmain : getActionProbabilities envTerminal 1 0 Store.empty (1/2)
      = some ([NpFloat.nan, NpFloat.nan], Store.empty) := by
    unfold getActionProbabilities
    rw [h30]
    norm_num [extractProbabilities, npDiv, envTerminal, Store.empty, List.range_succ]
  rw [hmain]
  exact ⟨rfl, rfl⟩

/-- C3 (amended): when every root visit count is zero and
`temperature ≠ 0`, the division is unguarded and the extraction returns
`nan` in every entry; no error value exists anywhere in the code path
and the call returns normally. -/
theorem C3_no_temperature_guard (g : Env Pos Move Player Rep Key) [DecidableEq Key]
    (fuel : ℕ) (cb : Pos) (t t' : Store Key) (temperature : ℚ)
    (hrun : runSims g fuel NUMBER_OF_MOVES_TO_SIMULATE cb t = some t')
    (hzero : ∀ a, a < g.ACTION_SIZE → (t'.Nsa (g.get_fen cb, a)).getD 0 = 0)
    (htemp : temperature ≠ 0)
    (hfpow : g.fpow 0 (1 / temperature) = 0) :
    getActionProbabilities g fuel cb t temperature
      = some (List.replicate g.ACTION_SIZE NpFloat.nan, t') := by
  unfold getActionProbabilities
  rw [hrun]
  have hNa : (List.range g.ACTION_SIZE).map (fun a => (t'.Nsa (g.get_fen cb, a)).getD 0)
      = List.replicate g.ACTION_SIZE 0 := by
    refine List.eq_replicate_iff.mpr ⟨by simp, ?_⟩
    intro b hb
    obtain ⟨i, hi, rfl⟩ := List.mem_map.mp hb
    exact hzero i (List.mem_range.mp hi)
  simp only [hNa]
  have hfpow2 : g.fpow 0 temperature⁻¹ = 0 := by rwa [← one_div]
  simp [extractProbabilities, htemp, hfpow, hfpow2, npDiv]

/-- Witness for C3 (amended) on the concrete terminal-root run. -/
theorem C3_witness :
    runSims envTerminal 1 NUMBER_OF_MOVES_TO_SIMULATE 0 Store.empty = some Store.empty
    ∧ (∀ a, a < envTerminal.ACTION_SIZE →
        ((Store.empty : Store ℕ).Nsa (envTerminal.get_fen 0, a)).getD 0 = 0)
    ∧ ((1:ℚ)/2 ≠ 0)
    ∧ envTerminal.fpow 0 (1 / ((1:ℚ)/2)) = 0
    ∧ getActionProbabilities envTerminal 1 0 Store.empty (1/2)
        = some (List.replicate envTerminal.ACTION_SIZE NpFloat.nan, Store.empty) := by
  have h30 : runSims envTerminal 1 NUMBER_OF_MOVES_TO_SIMULATE 0 Store.empty
      = some Store.empty :=
    runSims_terminal envTerminal 0 0 (by norm_num [envTerminal]) _ _
  exact ⟨h30, by decide, by norm_num, rfl,
    C3_no_temperature_guard envTerminal 1 0 Store.empty Store.empty (1/2)
      h30 (by decide) (by norm_num) rfl⟩

/-!
### C2 — visit accounting at the root (corrected)

Machinery: a depth measure `d` on state keys that strictly increases
along every transition (true of chess FEN keys, whose move counters
grow) localizes the mutations of a simulation: a completed `search`
from `cb` never touches `Nsa` entries of keys strictly shallower than
`cb`'s key.
-/

/-- Once a state's prior is stored it never changes (`Ps` entries are
only ever created, at expansion, for a key that was absent). -/
theorem search_Ps_mono (g : Env Pos Move Player Rep Key) [DecidableEq Key] :
    ∀ (fuel : ℕ) (cb : Pos) (t : Store Key) (v : ℚ) (t' : Store Key),
      search g fuel cb t = some (v, t') →
      ∀ (k : Key) (ps : List ℚ), t.Ps k = some ps → t'.Ps k = some ps := by
  intro fuel
  induction fuel with
  | zero => intro cb t v t' h; simp [search] at h
  | succ m ih =>
    intro cb t v t' h k ps hk
    simp only [search] at h
    by_cases he : g.get_game_ended cb = 0
    · rw [if_neg (not_not_intro he)] at h
      cases hps : t.Ps (g.get_fen cb) with
      | none =>
        simp only [hps, Option.some.injEq, Prod.mk.injEq] at h
        obtain ⟨-, ht⟩ := h
        rw [← ht]
        have hks : k ≠ g.get_fen cb := fun hcon => by
          rw [hcon, hps] at hk
          exact Option.noConfusion hk
        show upd t.Ps (g.get_fen cb) _ k = some ps
        rw [upd_ne _ _ _ _ hks]
        exact hk
      | some ps0 =>
        simp only [hps] at h
        cases hsel : selectAction (calculateUCT g.sqrt t (g.get_fen cb))
            (fun a => (g.get_valid_actions cb).getD a false) g.ACTION_SIZE with
        | none => simp only [hsel] at h; exact Option.noConfusion h
        | some action =>
          simp only [hsel] at h
          cases hrec : search g m (nextCanonical g cb action) t with
          | none => simp only [hrec] at h; exact Option.noConfusion h
          | some pr =>
            obtain ⟨value, t1⟩ := pr
            simp only [hrec, Option.some.injEq, Prod.mk.injEq] at h
            obtain ⟨-, ht⟩ := h
            rw [← ht]
            show t1.Ps k = some ps
            exact ih _ _ _ _ hrec k ps hk
    · rw [if_pos he] at h
      simp only [Option.some.injEq, Prod.mk.injEq] at h
      obtain ⟨-, ht⟩ := h
      rw [← ht]
      exact hk

/-- Locality: when keys strictly deepen along transitions, a completed
simulation from `cb` leaves the `Nsa` entry of every key strictly
shallower than `cb`'s key untouched. -/
theorem search_Nsa_local (g : Env Pos Move Player Rep Key) [DecidableEq Key]
    (d : Key → ℕ)
    (hd : ∀ (cb : Pos) (a : ℕ), d (g.get_fen cb) < d (g.get_fen (nextCanonical g cb a))) :
    ∀ (fuel : ℕ) (cb : Pos) (t : Store Key) (v : ℚ) (t' : Store Key),
      search g fuel cb t = some (v, t') →
      ∀ (k : Key) (a : ℕ), d k < d (g.get_fen cb) → t'.Nsa (k, a) = t.Nsa (k, a) := by
  intro fuel
  induction fuel with
  | zero => intro cb t v t' h; simp [search] at h
  | succ m ih =>
    intro cb t v t' h k a hk
    simp only [search] at h
    by_cases he : g.get_game_ended cb = 0
    · rw [if_neg (not_not_intro he)] at h
      cases hps : t.Ps (g.get_fen cb) with
      | none =>
        simp only [hps, Option.some.injEq, Prod.mk.injEq] at h
        obtain ⟨-, ht⟩ := h
        rw [← ht]
      | some ps0 =>
        simp only [hps] at h
        cases hsel : selectAction (calculateUCT g.sqrt t (g.get_fen cb))
            (fun a => (g.get_valid_actions cb).getD a false) g.ACTION_SIZE with
        | none => simp only [hsel] at h; exact Option.noConfusion h
        | some action =>
          simp only [hsel] at h
          cases hrec : search g m (nextCanonical g cb action) t with
          | none => simp only [hrec] at h; exact Option.noConfusion h
          | some pr =>
            obtain ⟨value, t1⟩ := pr
            simp only [hrec, Option.some.injEq, Prod.mk.injEq] at h
            obtain ⟨-, ht⟩ := h
            have h1 : t1.Nsa (k, a) = t.Nsa (k, a) :=
              ih _ _ _ _ hrec k a (lt_trans hk (hd cb action))
            have hne : (k, a) ≠ (g.get_fen cb, action) := fun hcon => by
              have : k = g.get_fen cb := congrArg Prod.fst hcon
              rw [this] at hk
              exact lt_irrefl _ hk
            rw [← ht]
            show (backup t1 (g.get_fen cb) action value).Nsa (k, a) = t.Nsa (k, a)
            unfold backup
            show upd t1.Nsa (g.get_fen cb, action) _ (k, a) = t.Nsa (k, a)
            rw [upd_ne _ _ _ _ hne]
            exact h1
    · rw [if_pos he] at h
      simp only [Option.some.injEq, Prod.mk.injEq] at h
      obtain ⟨-, ht⟩ := h
      rw [← ht]

/-- A backup at `(s, a)` with `a` inside the action space increases the
edge visit sum of `s` by exactly 1. -/
theorem edgeVisitSum_backup_same {Key : Type} [DecidableEq Key]
    (t : Store Key) (s : Key) (a n : ℕ) (v : ℚ) (han : a < n) :
    edgeVisitSum (backup t s a v) s n = edgeVisitSum t s n + 1 := by
  unfold edgeVisitSum
  have hpoint : ∀ b, ((backup t s a v).Nsa (s, b)).getD 0
      = (t.Nsa (s, b)).getD 0 + (if b = a then 1 else 0) := by
    intro b
    by_cases hb : b = a
    · subst hb
      cases hcase : t.Nsa (s, b) with
      | none => simp [backup, upd, hcase]
      | some mm => simp [backup, upd, hcase]
    · have hne : (s, b) ≠ (s, a) := fun hcon => hb (congrArg Prod.snd hcon)
      show (upd t.Nsa (s, a) _ (s, b)).getD 0 = _
      rw [upd_ne _ _ _ _ hne, if_neg hb]
      omega
  rw [Finset.sum_congr rfl (fun b _ => hpoint b), Finset.sum_add_distrib]
  congr 1
  rw [Finset.sum_ite_eq' (Finset.range n) a (fun _ => 1)]
  simp [han]

/-- A backup at `(s, a)` leaves the edge visit sum of any other key
unchanged. -/
theorem edgeVisitSum_backup_ne {Key : Type} [DecidableEq Key]
    (t : Store Key) (s k : Key) (a n : ℕ) (v : ℚ) (hk : k ≠ s) :
    edgeVisitSum (backup t s a v) k n = edgeVisitSum t k n := by
  unfold edgeVisitSum
  refine Finset.sum_congr rfl ?_
  intro b _
  have hne : (k, b) ≠ (s, a) := fun hcon => hk (congrArg Prod.fst hcon)
  show (upd t.Nsa (s, a) _ (k, b)).getD 0 = _
  rw [upd_ne _ _ _ _ hne]

/-- One completed simulation from an already-expanded, non-terminal
root increments the root's edge visit sum by exactly 1. -/
theorem search_edge_incr (g : Env Pos Move Player Rep Key) [DecidableEq Key]
    (d : Key → ℕ)
    (hd : ∀ (cb : Pos) (a : ℕ), d (g.get_fen cb) < d (g.get_fen (nextCanonical g cb a)))
    (fuel : ℕ) (cb : Pos) (t : Store Key) (ps : List ℚ) (v : ℚ) (t' : Store Key)
    (hend : g.get_game_ended cb = 0)
    (hexp : t.Ps (g.get_fen cb) = some ps)
    (h : search g fuel cb t = some (v, t')) :
    edgeVisitSum t' (g.get_fen cb) g.ACTION_SIZE
      = edgeVisitSum t (g.get_fen cb) g.ACTION_SIZE + 1 := by
  cases fuel with
  | zero => simp [search] at h
  | succ m =>
    simp only [search] at h
    rw [if_neg (not_not_intro hend)] at h
    simp only [hexp] at h
    cases hsel : selectAction (calculateUCT g.sqrt t (g.get_fen cb))
        (fun a => (g.get_valid_actions cb).getD a false) g.ACTION_SIZE with
    | none => simp only [hsel] at h; exact Option.noConfusion h
    | some action =>
      simp only [hsel] at h
      cases hrec : search g m (nextCanonical g cb action) t with
      | none => simp only [hrec] at h; exact Option.noConfusion h
      | some pr =>
        obtain ⟨value, t1⟩ := pr
        simp only [hrec, Option.some.injEq, Prod.mk.injEq] at h
        obtain ⟨-, ht⟩ := h
        have haction : action < g.ACTION_SIZE := selectAction_lt _ _ _ _ hsel
        have hsame : edgeVisitSum t1 (g.get_fen cb) g.ACTION_SIZE
            = edgeVisitSum t (g.get_fen cb) g.ACTION_SIZE := by
          unfold edgeVisitSum
          refine Finset.sum_congr rfl ?_
          intro b _
          rw [search_Nsa_local g d hd m _ t value t1 hrec _ b (hd cb action)]
        rw [← ht, edgeVisitSum_backup_same _ _ _ _ _ haction, hsame]

/-- Accumulation: from a root that is already expanded, `N` completed
simulations add exactly `N` to the root's edge visit sum. -/
theorem runSims_edge_sum (g : Env Pos Move Player Rep Key) [DecidableEq Key]
    (d : Key → ℕ)
    (hd : ∀ (cb : Pos) (a : ℕ), d (g.get_fen cb) < d (g.get_fen (nextCanonical g cb a)))
    (fuel : ℕ) (cb : Pos)
    (hend : g.get_game_ended cb = 0) :
    ∀ (N : ℕ) (t : Store Key) (ps : List ℚ) (t2 : Store Key),
      t.Ps (g.get_fen cb) = some ps →
      runSims g fuel N cb t = some t2 →
      edgeVisitSum t2 (g.get_fen cb) g.ACTION_SIZE
        = edgeVisitSum t (g.get_fen cb) g.ACTION_SIZE + N := by
  intro N
  induction N with
  | zero =>
    intro t ps t2 hps h
    simp only [runSims, Option.some.injEq] at h
    rw [← h]
    omega
  | succ M ihN =>
    intro t ps t2 hps h
    rw [runSims] at h
    cases hs : search g fuel cb t with
    | none => simp only [hs] at h; exact Option.noConfusion h
    | some pr =>
      obtain ⟨v1, t1⟩ := pr
      simp only [hs] at h
      have hincr := search_edge_incr g d hd fuel cb t ps v1 t1 hend hps hs
      have hps1 : t1.Ps (g.get_fen cb) = some ps :=
        search_Ps_mono g fuel cb t v1 t1 hs _ ps hps
      have htail := ihN t1 ps t2 hps1 h
      omega

/-- C2 counterexample: a non-terminal root, `N = 1` simulation — the
sum of the root's edge visits is 0, not 1 (the single simulation only
expands the root). -/
theorem C2_counterexample :
    (runSims envLine 5 1 0 Store.empty).map
        (fun t => edgeVisitSum t (envLine.get_fen 0) envLine.ACTION_SIZE) = some 0
    ∧ (0 : ℕ) ≠ 1 := by
  refine ⟨?_, by norm_num⟩
  norm_num [runSims, search, expandedPrior, maskPolicy, upd, Store.empty, envLine,
    edgeVisitSum, Finset.sum_range_succ]

/-- C2 (amended): starting from the empty store, after `N ≥ 1`
completed simulations from a fixed non-terminal root whose state keys
strictly deepen along transitions, the sum of the root's edge visit
counts is `N - 1`: the first simulation expands the root and touches no
edge, each of the following `N - 1` traverses exactly one root edge. -/
theorem C2_visit_accounting (g : Env Pos Move Player Rep Key) [DecidableEq Key]
    (d : Key → ℕ)
    (hd : ∀ (cb : Pos) (a : ℕ), d (g.get_fen cb) < d (g.get_fen (nextCanonical g cb a)))
    (fuel N : ℕ) (cb : Pos) (t : Store Key)
    (hend : g.get_game_ended cb = 0) (hN : 1 ≤ N)
    (hrun : runSims g fuel N cb Store.empty = some t) :
    edgeVisitSum t (g.get_fen cb) g.ACTION_SIZE = N - 1 := by
  obtain ⟨M, rfl⟩ : ∃ M, N = M + 1 := ⟨N - 1, by omega⟩
  rw [runSims] at hrun
  cases hs : search g fuel cb (Store.empty : Store Key) with
  | none => simp only [hs] at hrun; exact Option.noConfusion hrun
  | some pr =>
    obtain ⟨v1, t1⟩ := pr
    simp only [hs] at hrun
    cases fuel with
    | zero => simp [search] at hs
    | succ m =>
      simp only [search] at hs
      rw [if_neg (not_not_intro hend)] at hs
      have hnone : (Store.empty : Store Key).Ps (g.get_fen cb) = none := rfl
      simp only [hnone, Option.some.injEq, Prod.mk.injEq] at hs
      obtain ⟨-, ht1⟩ := hs
      have hps1 : t1.Ps (g.get_fen cb)
          = some (expandedPrior (g.predict (g.get_model_representation cb)).1
              (g.get_valid_actions cb)) := by
        rw [← ht1]
        show upd (Store.empty : Store Key).Ps (g.get_fen cb) _ (g.get_fen cb) = _
        rw [upd_same]
      have hsum1 : edgeVisitSum t1 (g.get_fen cb) g.ACTION_SIZE = 0 := by
        rw [← ht1]
        unfold edgeVisitSum
        refine Finset.sum_eq_zero ?_
        intro b _
        rfl
      have htail := runSims_edge_sum g d hd (m + 1) cb hend M t1 _ t hps1 hrun
      omega

/-- Witness for C2 (amended) on the single-action line game with three
simulations: the root's edge visit sum is `3 - 1 = 2`. -/
theorem C2_witness :
    edgeVisitSum ((runSims envLine 10 3 0 Store.empty).getD Store.empty)
      (envLine.get_fen 0) envLine.ACTION_SIZE = 3 - 1 := by
  have hsome : (runSims envLine 10 3 0 Store.empty).isSome = true := by
    norm_num [runSims, search, expandedPrior, maskPolicy, upd, Store.empty, envLine,
      selectAction, selectLoop, selectStep, List.range_succ, calculateUCT,
      nextCanonical, backup]
  exact C2_visit_accounting envLine id
    (by intro cb a; simp [nextCanonical, envLine]) 10 3 0 _ rfl (by norm_num)
    (option_eq_some_getD _ _ hsome)

/-!
### C6 — counting invariant of the statistics store
-/

/-- The empty store satisfies the counting invariant. -/
theorem searchInv_empty (n : ℕ) : SearchInv n (Store.empty : Store Key) := by
  refine ⟨fun k _ => rfl, fun k a _ => rfl, fun k a _ => rfl, fun k => ?_⟩
  unfold edgeVisitSum
  refine (Finset.sum_eq_zero ?_).symm
  intro b _
  rfl

/-- Expansion (storing a prior and `Ns = 0` for a fresh key) preserves
the counting invariant. -/
theorem expand_preserves_inv {Key : Type} [DecidableEq Key]
    (n : ℕ) (t : Store Key) (s : Key) (pr : List ℚ)
    (hInv : SearchInv n t) (hs : t.Ps s = none) :
    SearchInv n { t with Ps := upd t.Ps s (some pr), Ns := upd t.Ns s (some 0) } := by
  obtain ⟨h1, h2, h3, h4⟩ := hInv
  have hsum : ∀ k, edgeVisitSum
      { t with Ps := upd t.Ps s (some pr), Ns := upd t.Ns s (some 0) } k n
      = edgeVisitSum t k n := fun _ => rfl
  refine ⟨?_, ?_, h3, ?_⟩
  · intro k hk
    have hk' : upd t.Ps s (some pr) k = none := hk
    by_cases hks : k = s
    · subst hks
      rw [upd_same] at hk'
      exact Option.noConfusion hk'
    · rw [upd_ne _ _ _ _ hks] at hk'
      show upd t.Ns s (some 0) k = none
      rw [upd_ne _ _ _ _ hks]
      exact h1 k hk'
  · intro k b hk
    have hk' : upd t.Ps s (some pr) k = none := hk
    by_cases hks : k = s
    · subst hks
      rw [upd_same] at hk'
      exact Option.noConfusion hk'
    · rw [upd_ne _ _ _ _ hks] at hk'
      exact h2 k b hk'
  · intro k
    by_cases hks : k = s
    · subst hks
      show (upd t.Ns k (some 0) k).getD 0 = _
      rw [upd_same, hsum]
      refine (Finset.sum_eq_zero ?_).symm
      intro b _
      rw [h2 k b hs]
      rfl
    · show (upd t.Ns s (some 0) k).getD 0 = _
      rw [upd_ne _ _ _ _ hks, hsum]
      exact h4 k

/-- A backup on an expanded key with an in-range action preserves the
counting invariant: it increments exactly one edge counter and the
state's own counter. -/
theorem backup_preserves_inv {Key : Type} [DecidableEq Key]
    (n : ℕ) (t : Store Key) (s : Key) (a : ℕ) (v : ℚ) (ps : List ℚ)
    (hInv : SearchInv n t) (hps : t.Ps s = some ps) (ha : a < n) :
    SearchInv n (backup t s a v) := by
  obtain ⟨h1, h2, h3, h4⟩ := hInv
  refine ⟨?_, ?_, ?_, ?_⟩
  · intro k hk
    have hk' : t.Ps k = none := hk
    have hks : k ≠ s := fun hcon => by
      rw [hcon, hps] at hk'
      exact Option.noConfusion hk'
    show upd t.Ns s _ k = none
    rw [upd_ne _ _ _ _ hks]
    exact h1 k hk'
  · intro k b hk
    have hk' : t.Ps k = none := hk
    have hks : k ≠ s := fun hcon => by
      rw [hcon, hps] at hk'
      exact Option.noConfusion hk'
    have hne : (k, b) ≠ (s, a) := fun hcon => hks (congrArg Prod.fst hcon)
    show upd t.Nsa (s, a) _ (k, b) = none
    rw [upd_ne _ _ _ _ hne]
    exact h2 k b hk'
  · intro k b hb
    have hne : (k, b) ≠ (s, a) := fun hcon => by
      have hba : b = a := congrArg Prod.snd hcon
      omega
    show upd t.Nsa (s, a) _ (k, b) = none
    rw [upd_ne _ _ _ _ hne]
    exact h3 k b hb
  · intro k
    by_cases hks : k = s
    · subst hks
      show (upd t.Ns k _ k).getD 0 = _
      rw [upd_same, edgeVisitSum_backup_same t k a n v ha]
      show (t.Ns k).getD 0 + 1 = edgeVisitSum t k n + 1
      rw [h4 k]
    · show (upd t.Ns s _ k).getD 0 = _
      rw [upd_ne _ _ _ _ hks, edgeVisitSum_backup_ne t s k a n v hks]
      exact h4 k

/-- Every completed simulation preserves the counting invariant. -/
theorem search_preserves_inv (g : Env Pos Move Player Rep Key) [DecidableEq Key] :
    ∀ (fuel : ℕ) (cb : Pos) (t : Store Key) (v : ℚ) (t' : Store Key),
      SearchInv g.ACTION_SIZE t → search g fuel cb t = some (v, t') →
      SearchInv g.ACTION_SIZE t' := by
  intro fuel
  induction fuel with
  | zero => intro cb t v t' _ h; simp [search] at h
  | succ m ih =>
    intro cb t v t' hInv h
    simp only [search] at h
    by_cases he : g.get_game_ended cb = 0
    · rw [if_neg (not_not_intro he)] at h
      cases hps : t.Ps (g.get_fen cb) with
      | none =>
        simp only [hps, Option.some.injEq, Prod.mk.injEq] at h
        obtain ⟨-, ht⟩ := h
        rw [← ht]
        exact expand_preserves_inv _ t _ _ hInv hps
      | some ps0 =>
        simp only [hps] at h
        cases hsel : selectAction (calculateUCT g.sqrt t (g.get_fen cb))
            (fun a => (g.get_valid_actions cb).getD a false) g.ACTION_SIZE with
        | none => simp only [hsel] at h; exact Option.noConfusion h
        | some action =>
          simp only [hsel] at h
          cases hrec : search g m (nextCanonical g cb action) t with
          | none => simp only [hrec] at h; exact Option.noConfusion h
          | some pr =>
            obtain ⟨value, t1⟩ := pr
            simp only [hrec, Option.some.injEq, Prod.mk.injEq] at h
            obtain ⟨-, ht⟩ := h
            rw [← ht]
            exact backup_preserves_inv _ t1 _ action value ps0
              (ih _ _ _ _ hInv hrec)
              (search_Ps_mono g m _ t value t1 hrec _ ps0 hps)
              (selectAction_lt _ _ _ _ hsel)
    · rw [if_pos he] at h
      simp only [Option.some.injEq, Prod.mk.injEq] at h
      obtain ⟨-, ht⟩ := h
      rw [← ht]
      exact hInv

/-- The whole simulation loop preserves the counting invariant. -/
theorem runSims_preserves_inv (g : Env Pos Move Player Rep Key) [DecidableEq Key]
    (fuel : ℕ) (cb : Pos) :
    ∀ (N : ℕ) (t t' : Store Key), SearchInv g.ACTION_SIZE t →
      runSims g fuel N cb t = some t' → SearchInv g.ACTION_SIZE t' := by
  intro N
  induction N with
  | zero =>
    intro t t' hInv h
    simp only [runSims, Option.some.injEq] at h
    rw [← h]
    exact hInv
  | succ M ih =>
    intro t t' hInv h
    rw [runSims] at h
    cases hs : search g fuel cb t with
    | none => simp only [hs] at h; exact Option.noConfusion h
    | some pr =>
      obtain ⟨v1, t1⟩ := pr
      simp only [hs] at h
      exact ih t1 t' (search_preserves_inv g fuel cb t v1 t1 hInv hs) h

/-- C6: after any sequence of completed simulations from the empty
store, `edgeVisitCount(s, a) ≤ visitCount(s)` for every action, and
`visitCount(s)` equals the sum of the edge visit counts of `s`; each
simulation passing through `s` increments exactly one edge counter and
the state's own counter (lemmas `backup_preserves_inv`,
`search_preserves_inv`). -/
theorem C6_counting_invariant (g : Env Pos Move Player Rep Key) [DecidableEq Key]
    (fuel N : ℕ) (cb : Pos) (t : Store Key)
    (hrun : runSims g fuel N cb Store.empty = some t) (k : Key) (a : ℕ) :
    (t.Nsa (k, a)).getD 0 ≤ (t.Ns k).getD 0
    ∧ (t.Ns k).getD 0 = edgeVisitSum t k g.ACTION_SIZE := by
  have hInv : SearchInv g.ACTION_SIZE t :=
    runSims_preserves_inv g fuel cb N Store.empty t
      (searchInv_empty g.ACTION_SIZE) hrun
  obtain ⟨h1, h2, h3, h4⟩ := hInv
  refine ⟨?_, h4 k⟩
  by_cases ha : a < g.ACTION_SIZE
  · rw [h4 k]
    unfold edgeVisitSum
    exact Finset.single_le_sum (f := fun b => (t.Nsa (k, b)).getD 0)
      (fun _ _ => Nat.zero_le _) (Finset.mem_range.mpr ha)
  · rw [h3 k a (le_of_not_lt ha)]
    exact Nat.zero_le _

/-- Witness for C6 after two completed simulations of the line game. -/
theorem C6_witness :
    ((((runSims envLine 10 2 0 Store.empty).getD Store.empty).Nsa (0, 0)).getD 0
      ≤ ((((runSims envLine 10 2 0 Store.empty).getD Store.empty).Ns 0)).getD 0)
    ∧ (((runSims envLine 10 2 0 Store.empty).getD Store.empty).Ns 0).getD 0
      = edgeVisitSum ((runSims envLine 10 2 0 Store.empty).getD Store.empty) 0
          envLine.ACTION_SIZE := by
  have hsome : (runSims envLine 10 2 0 Store.empty).isSome = true := by
    norm_num [runSims, search, expandedPrior, maskPolicy, upd, Store.empty, envLine,
      selectAction, selectLoop, selectStep, List.range_succ, calculateUCT,
      nextCanonical, backup]
  exact C6_counting_invariant envLine 10 2 0 _ (option_eq_some_getD _ _ hsome) 0 0

end MCTSModel
